import Mathlib

/-!
Shallow embedding of the Stmp3 backend (Express server `src/index.js` and its
services `keys.js` / `whisper.js`) and proofs about its job tracker, progress
parsing, credential store and local transcription path.

Conventions of the embedding:
* JS strings are modelled as `List Char`; byte buffers as `List Nat` with every
  element `< 256`.
* Asynchronous effects (subprocess exit, file reads/writes) are modelled as
  explicit inputs: a run of the background task is a list of stdout chunks
  followed by one close event carrying the exit code, the accumulated stderr
  text and the result of reading the output file.
* External black boxes (the AES-256-CBC block cipher of Node's `crypto`, and
  the utf8 string/byte codec of `Buffer`) are parameters of the definitions,
  constrained only by the inverse properties the respective library documents.
  Everything the repository itself implements (hex encoding, the iv:data
  payload format, CBC chaining, PKCS#7 padding as performed by the cipher
  stream, the masking regex, the PROGRESS line parser) is defined concretely.
-/

namespace Stmp3

/-- Digit-string value, as `parseInt(s, 10)` computes it on an all-digit string. -/
def digitsVal (ds : List Char) : Nat :=
  ds.foldl (fun a c => a * 10 + (c.toNat - '0'.toNat)) 0

/-- Check that the first list is an initial segment of the second. -/
def leadsWith : List Char → List Char → Bool
  | [], _ => true
  | _ :: _, [] => false
  | p :: ps, c :: cs => p = c && leadsWith ps cs

/-- Attempt of the regex `PROGRESS (\d\x7b1,3\x7d)` at the head of `cs`: the literal
text `PROGRESS ` followed by at least one digit; the capture takes greedily at
most three digits.  Returns the captured number. -/
def matchProgressAt (cs : List Char) : Option Nat :=
  if leadsWith ("PROGRESS ".toList) cs then
    let ds := ((cs.drop 9).takeWhile Char.isDigit).take 3
    if ds.isEmpty then none else some (digitsVal ds)
  else none

/-- First match of `line.match(/PROGRESS (\d\x7b1,3\x7d)/)` scanning left to right. -/
def findProgress : List Char → Option Nat
  | [] => none
  | c :: cs =>
    match matchProgressAt (c :: cs) with
    | some v => some v
    | none => findProgress cs

/-- JS `String.prototype.split` with a single-character separator: every
separator occurrence starts a new (possibly empty) field. -/
def splitAll (sep : Char) : List Char → List (List Char)
  | [] => [[]]
  | c :: cs =>
    if c = sep then [] :: splitAll sep cs
    else
      match splitAll sep cs with
      | [] => [[c]]
      | s :: ss => (c :: s) :: ss

/-- The chunk preprocessing `d.toString().split(/\n+/).filter(Boolean)`:
splitting on newline runs and dropping empties equals splitting on every
newline and dropping empties. -/
def linesOf (chunk : List Char) : List (List Char) :=
  (splitAll '\n' chunk).filter (fun l => !l.isEmpty)

/-- Whitespace stripped by JS `String.prototype.trim` (the code points the
transcripts can realistically contain). -/
def isTrimChar (c : Char) : Bool :=
  c = ' ' || c = '\t' || c = '\n' || c = '\r' ||
  c = Char.ofNat 0x0b || c = Char.ofNat 0x0c || c = Char.ofNat 0xa0 ||
  c = Char.ofNat 0xfeff || c = Char.ofNat 0x2028 || c = Char.ofNat 0x2029

/-- JS `String.prototype.trim`. -/
def trim (cs : List Char) : List Char :=
  ((cs.dropWhile isTrimChar).reverse.dropWhile isTrimChar).reverse

/-! ## Job registry (`src/index.js`, the in-memory `jobs` map) -/

/-- Job status values stored in the `jobs` map. -/
inductive JobStatus where
  | processing
  | done
  | error
deriving DecidableEq, Repr

/-- One entry of `jobs`: `\x7b status, progress, result, error \x7d`. -/
structure Job where
  status : JobStatus
  progress : Nat
  result : Option (List Char)
  error : Option (List Char)
deriving DecidableEq, Repr

/-- The entry registered by `jobs.set(jobId, \x7b status: 'processing', progress: 0,
result: null, error: null \x7d)`. -/
def mkJob : Job :=
  { status := .processing, progress := 0, result := none, error := none }

/-- Effect of one stdout line on the job (`index.js` lines 96-105): if the line
matches the PROGRESS pattern, store `Math.min(100, parseInt(m[1], 10))`, but
only while the job is still `processing`. -/
def applyLine (j : Job) (line : List Char) : Job :=
  match findProgress line with
  | some v => if j.status = .processing then { j with progress := min 100 v } else j
  | none => j

/-- The `ps.stdout.on('data', ...)` handler applied to one data chunk. -/
def stdoutHandler (j : Job) (chunk : List Char) : Job :=
  (linesOf chunk).foldl applyLine j

/-- The observable data of the subprocess `close` event: exit code, the stderr
text accumulated by the `ps.stderr` handler, and the outcome of
`readFile(outPath, 'utf8')` (only consulted when the exit code is 0). -/
structure CloseEv where
  code : Int
  stderr : List Char
  readRes : Except (List Char) (List Char)

/-- The `ps.on('close', ...)` handler (`index.js` lines 109-126).  Exit code 0
with a readable output file completes the job; a read failure or a non-zero
exit code fails it, the latter with `stderr` when non-empty (JS `stderr ||`)
and otherwise with the exit-code message. -/
def closeHandler (j : Job) (ev : CloseEv) : Job :=
  if ev.code = 0 then
    match ev.readRes with
    | .ok text => { j with status := .done, progress := 100, result := some (trim text) }
    | .error e => { j with status := .error, error := some e }
  else
    { j with status := .error,
             error := some (if ev.stderr.isEmpty then ("exit code " ++ toString ev.code).toList else ev.stderr) }

/-- A complete run of one job after the subprocess was spawned: the stdout
chunks arrive first, then the single close event.  (Node fires `close` once,
after the stdio streams have ended.) -/
def runJob (chunks : List (List Char)) (ev : CloseEv) : Job :=
  closeHandler (chunks.foldl stdoutHandler mkJob) ev

/-- The whole background flow of the local branch of `POST /api/transcribe`
after the `\x7b jobId \x7d` response was sent: first `await writeFile(wavPath, ...)`;
a rejection there escapes the background flow into the route's catch (the job
is left untouched), otherwise the subprocess runs to its close event.  The
second component is the error escaping the job record, if any. -/
def runLocalJob (writeRes : Except (List Char) Unit) (chunks : List (List Char))
    (ev : CloseEv) : Job × Option (List Char) :=
  match writeRes with
  | .error e => (mkJob, some e)
  | .ok _ => (runJob chunks ev, none)

/-! ## Synchronous local transcription (`whisper.js`, `transcribeLocal`) -/

/-- The synchronous `transcribeLocal` of `whisper.js`, as a function of the
subprocess exit code, the captured stderr text, and the outcome of
`readFile(tmpOut, 'utf8')` (`none` when the read fails; the `.catch(() => '')`
turns that into the empty string).  First component: the returned text or the
thrown error (`stderr ||` falls back to the exit-code message).  Second
component: whether the `unlink` of the two temporary files was attempted —
the `await` of the exit promise rejects on a non-zero exit code before the
cleanup line runs. -/
def transcribeLocal (code : Int) (stderr : List Char) (readRes : Option (List Char)) :
    Except (List Char) (List Char) × Bool :=
  if code = 0 then
    (.ok (trim (readRes.getD [])), true)
  else
    (.error (if stderr.isEmpty then ("python exited " ++ toString code).toList else stderr), false)

/-! ## Credential store (`keys.js`)

`encrypt`/`decrypt` implement everything `keys.js` does around Node's
`crypto`: hex rendering of the iv and of the ciphertext, the `ivHex:dataHex`
payload format and its `split(':')` parsing, the CBC block chaining performed
by `createCipheriv('aes-256-cbc', ...)` and the PKCS#7 padding its
`update`/`final` stream applies.  The AES-256 single-block permutation under
the sha256-derived key stays abstract: it is the parameter `E` (and `D` for
its inverse), exactly the black box the `crypto` library provides. -/

/-- Lowercase hex digit, as `Buffer.prototype.toString('hex')` renders it. -/
def hexDigit (n : Nat) : Char :=
  if n < 10 then Char.ofNat ('0'.toNat + n) else Char.ofNat ('a'.toNat + (n - 10))

/-- Numeric value of a lowercase hex digit, as `Buffer.from(s, 'hex')` reads it. -/
def hexVal (c : Char) : Nat :=
  if 'a'.toNat ≤ c.toNat then c.toNat - 'a'.toNat + 10 else c.toNat - '0'.toNat

/-- Hex rendering of a byte list, two digits per byte. -/
def toHexChars (bs : List Nat) : List Char :=
  bs.flatMap (fun b => [hexDigit (b / 16), hexDigit (b % 16)])

/-- Hex parsing of a character list back to bytes, one byte per digit pair. -/
def fromHexChars : List Char → List Nat
  | c1 :: c2 :: rest => (hexVal c1 * 16 + hexVal c2) :: fromHexChars rest
  | _ => []

/-- All elements are bytes. -/
abbrev Bytes (bs : List Nat) : Prop := ∀ b ∈ bs, b < 256

/-- Bytewise xor of two equal-length blocks. -/
def xorBytes (a p : List Nat) : List Nat := List.zipWith (fun x y => x ^^^ y) a p

/-- CBC encryption chaining over 16-byte blocks with block permutation `E`. -/
def cbcEnc (E : List Nat → List Nat) (prev : List Nat) : List (List Nat) → List (List Nat)
  | [] => []
  | b :: bs =>
    let c := E (xorBytes b prev)
    c :: cbcEnc E c bs

/-- CBC decryption chaining with inverse block permutation `D`. -/
def cbcDec (D : List Nat → List Nat) (prev : List Nat) : List (List Nat) → List (List Nat)
  | [] => []
  | c :: cs => xorBytes (D c) prev :: cbcDec D c cs

/-- PKCS#7 padding to a multiple of 16 bytes, as the cipher stream applies it:
`n` bytes of value `n`, `1 ≤ n ≤ 16`. -/
def pad16 (bs : List Nat) : List Nat :=
  bs ++ List.replicate (16 - bs.length % 16) (16 - bs.length % 16)

/-- PKCS#7 unpadding, as the decipher's `final` applies it on a valid padding:
drop as many trailing bytes as the last byte says. -/
def unpad16 (bs : List Nat) : List Nat :=
  bs.take (bs.length - bs.getLastD 0)

/-- Split a byte list into the 16-byte blocks the cipher consumes. -/
def chunk16 : List Nat → List (List Nat)
  | [] => []
  | b :: l => ((b :: l).take 16) :: chunk16 ((b :: l).drop 16)
termination_by l => l.length
decreasing_by simp; omega

/-- The `encrypt` of `keys.js`: hex of the random iv, a colon, hex of the CBC
ciphertext of the padded utf8 bytes.  The iv is a parameter (the source draws
it from `crypto.randomBytes(16)`). -/
def encrypt (E : List Nat → List Nat) (iv : List Nat) (textBytes : List Nat) : List Char :=
  toHexChars iv ++ ':' :: toHexChars (cbcEnc E iv (chunk16 (pad16 textBytes))).flatten

/-- The `decrypt` of `keys.js`: split the payload on colons, destructure the
first two fields as iv and data, hex-decode both, CBC-decrypt, unpad. -/
def decrypt (D : List Nat → List Nat) (payload : List Char) : List Nat :=
  unpad16 (cbcDec D (fromHexChars ((splitAll ':' payload).getD 0 []))
    (chunk16 (fromHexChars ((splitAll ':' payload).getD 1 [])))).flatten

/-- The persisted key map `db.data.keys`: provider name to payload string. -/
def Store := String → Option (List Char)

/-- The initial `keys: \x7b\x7d` default data. -/
def emptyStore : Store := fun _ => none

/-- The `setKey` of `keys.js`: store the encrypted payload under the provider
name, overwriting.  `enc8` is the utf8 string-to-bytes conversion performed by
`cipher.update(text, 'utf8')`. -/
def setKey (E : List Nat → List Nat) (enc8 : List Char → List Nat) (s : Store)
    (provider : String) (apiKey : List Char) (iv : List Nat) : Store :=
  fun q => if q = provider then some (encrypt E iv (enc8 apiKey)) else s q

/-- Whether the regex metacharacter dot matches a character: anything but a JS
line terminator (the regex has no dotAll flag). -/
def dotMatch (c : Char) : Bool :=
  !(c = '\n' || c = '\r' || c = Char.ofNat 0x2028 || c = Char.ofNat 0x2029)

/-- The masking `key.replace(/.(?=.\x7b4\x7d)/g, '*')`: a character is replaced by
`*` exactly when the dot matches it and the lookahead finds four further
dot-matching characters right after it. -/
def maskKey : List Char → List Char
  | [] => []
  | c :: rest =>
    (if dotMatch c && (rest.take 4).length = 4 && (rest.take 4).all dotMatch then '*' else c)
      :: maskKey rest

/-- The `getKey` of `keys.js`: look the payload up (absent provider yields
null), decrypt, optionally mask.  `dec8` is the utf8 bytes-to-string
conversion performed by `dec.toString('utf8')`. -/
def getKey (D : List Nat → List Nat) (dec8 : List Nat → List Char) (s : Store)
    (provider : String) (masked : Bool) : Option (List Char) :=
  match s provider with
  | none => none
  | some enc => some (if masked then maskKey (dec8 (decrypt D enc)) else dec8 (decrypt D enc))

/-! ## The `POST /api/transcribe` route (`index.js` lines 61-93) -/

/-- The parts of the multer upload the route consults. -/
structure UploadFile where
  mimetype : String
deriving DecidableEq

/-- The `okMimes` allow-list. -/
def okMimes : List String :=
  ["audio/mpeg", "audio/mp3", "audio/wav", "audio/x-wav", "audio/wave", "audio/x-pn-wav"]

/-- JS `x || dflt` over an optional environment string: undefined and the
empty string both fall back. -/
def jsOrDefault (v : Option String) (dflt : String) : String :=
  match v with
  | none => dflt
  | some s => if s.isEmpty then dflt else s

/-- Shape of the route's response. -/
inductive RouteResp where
  /-- An error status with its message body. -/
  | reject (status : Nat) (errMsg : String)
  /-- 200 with text, mode api, done true. -/
  | syncText
  /-- 200 with jobId, mode local, done false. -/
  | jobAccepted
deriving DecidableEq

/-- What the route did: its response, whether a `jobs.set` registered a job,
and whether a transcription was started (the synchronous
`createWhisperTranscription` call, or the local subprocess spawn). -/
structure TranscribeOutcome where
  response : RouteResp
  jobCreated : Bool
  transcriptionStarted : Bool
deriving DecidableEq

/-- The decision structure of `POST /api/transcribe`: missing file and
disallowed MIME type are rejected with 400 before any mode dispatch; remote
mode transcribes synchronously; local mode registers a job and spawns the
subprocess. -/
def transcribeRoute (file : Option UploadFile) (whisperModeEnv : Option String) :
    TranscribeOutcome :=
  match file with
  | none => ⟨.reject 400 "缺少 audio 檔案", false, false⟩
  | some f =>
    if okMimes.contains f.mimetype then
      if (jsOrDefault whisperModeEnv "api").toLower ≠ "local" then ⟨.syncText, false, true⟩
      else ⟨.jobAccepted, true, true⟩
    else ⟨.reject 400 "僅支援 mp3 或 wav", false, false⟩

/-! ## Shared lemmas about the job tracker -/

theorem applyLine_status (j : Job) (line : List Char) : (applyLine j line).status = j.status := by
  unfold applyLine
  cases findProgress line with
  | none => rfl
  | some v =>
    by_cases h : j.status = .processing
    · simp [h]
    · simp [h]

theorem applyLine_not_processing (j : Job) (line : List Char) (h : j.status ≠ .processing) :
    applyLine j line = j := by
  unfold applyLine
  cases findProgress line with
  | none => rfl
  | some v => simp [h]

theorem foldl_applyLine_not_processing (ls : List (List Char)) (j : Job)
    (h : j.status ≠ .processing) : ls.foldl applyLine j = j := by
  induction ls with
  | nil => rfl
  | cons l ls ih => rw [List.foldl_cons, applyLine_not_processing j l h]; exact ih

theorem stdoutHandler_not_processing (j : Job) (chunk : List Char)
    (h : j.status ≠ .processing) : stdoutHandler j chunk = j :=
  foldl_applyLine_not_processing _ j h

theorem applyLine_progress_le (j : Job) (line : List Char) (h : j.progress ≤ 100) :
    (applyLine j line).progress ≤ 100 := by
  unfold applyLine
  cases findProgress line with
  | none => exact h
  | some v =>
    by_cases hs : j.status = .processing
    · simp only [hs, if_true, reduceIte]
      exact Nat.min_le_left 100 v
    · simpa [hs] using h

theorem foldl_applyLine_progress_le (ls : List (List Char)) (j : Job) (h : j.progress ≤ 100) :
    (ls.foldl applyLine j).progress ≤ 100 := by
  induction ls generalizing j with
  | nil => exact h
  | cons l ls ih => exact ih _ (applyLine_progress_le j l h)

theorem stdoutHandler_progress_le (j : Job) (chunk : List Char) (h : j.progress ≤ 100) :
    (stdoutHandler j chunk).progress ≤ 100 :=
  foldl_applyLine_progress_le _ j h

theorem foldl_stdoutHandler_progress_le (chunks : List (List Char)) (j : Job)
    (h : j.progress ≤ 100) : (chunks.foldl stdoutHandler j).progress ≤ 100 := by
  induction chunks generalizing j with
  | nil => exact h
  | cons c cs ih => exact ih _ (stdoutHandler_progress_le j c h)

theorem closeHandler_progress_le (j : Job) (ev : CloseEv) (h : j.progress ≤ 100) :
    (closeHandler j ev).progress ≤ 100 := by
  unfold closeHandler
  by_cases hc : ev.code = 0
  · cases ev.readRes with
    | ok t => simp [hc]
    | error e => simpa [hc] using h
  · simpa [hc] using h

/-! ## C1 -/

/-- C1: a freshly created job has status processing and progress 0; a parsed
PROGRESS line takes effect only while the status is still processing, and once
the status is done or error the stdout machinery never changes the job again
(after completion, further progress updates are no-ops). -/
theorem C1_terminal_states :
    (mkJob.status = .processing ∧ mkJob.progress = 0) ∧
    (∀ (j : Job) (line : List Char), j.status = .done ∨ j.status = .error →
      applyLine j line = j) ∧
    (∀ (j : Job) (chunk : List Char), j.status = .done ∨ j.status = .error →
      stdoutHandler j chunk = j) := by
  refine ⟨⟨rfl, rfl⟩, ?_, ?_⟩
  · intro j line h
    apply applyLine_not_processing
    rcases h with h | h <;> simp [h]
  · intro j chunk h
    apply stdoutHandler_not_processing
    rcases h with h | h <;> simp [h]

/-- Witness for C1 at a concrete terminal job and a concrete progress line. -/
theorem C1_terminal_states_witness :
    applyLine ⟨.done, 100, some "t".toList, none⟩ "PROGRESS 5".toList
        = ⟨.done, 100, some "t".toList, none⟩ ∧
    stdoutHandler ⟨.error, 40, none, some "boom".toList⟩ "PROGRESS 99\nPROGRESS 7".toList
        = ⟨.error, 40, none, some "boom".toList⟩ :=
  ⟨C1_terminal_states.2.1 _ _ (Or.inl rfl), C1_terminal_states.2.2 _ _ (Or.inr rfl)⟩

/-! ## C7 -/

/-- C7: the progress field stays in [0, 100] at every point of the lifecycle:
a fresh job has progress 0, every parsed value is stored clamped through
`min 100`, every stdout chunk and the close event preserve the bound, the
successful close sets progress to exactly 100, and every complete run ends
within the bound. -/
theorem C7_progress_range :
    mkJob.progress = 0 ∧
    (∀ (j : Job) (line : List Char) (v : Nat), findProgress line = some v →
      j.status = .processing → (applyLine j line).progress = min 100 v ∧ min 100 v ≤ 100) ∧
    (∀ (j : Job) (chunk : List Char), j.progress ≤ 100 →
      (stdoutHandler j chunk).progress ≤ 100) ∧
    (∀ (j : Job) (ev : CloseEv), j.progress ≤ 100 → (closeHandler j ev).progress ≤ 100) ∧
    (∀ (j : Job) (ev : CloseEv) (text : List Char), ev.code = 0 → ev.readRes = .ok text →
      (closeHandler j ev).progress = 100) ∧
    (∀ (chunks : List (List Char)) (ev : CloseEv), (runJob chunks ev).progress ≤ 100) := by
  refine ⟨rfl, ?_, stdoutHandler_progress_le, closeHandler_progress_le, ?_, ?_⟩
  · intro j line v hv hs
    constructor
    · simp [applyLine, hv, hs]
    · exact Nat.min_le_left 100 v
  · intro j ev text hc hr
    simp [closeHandler, hc, hr]
  · intro chunks ev
    exact closeHandler_progress_le _ ev (foldl_stdoutHandler_progress_le chunks mkJob (by decide))

/-- Witness for C7 at concrete jobs, lines and close events. -/
theorem C7_progress_range_witness :
    (applyLine mkJob "PROGRESS 350".toList).progress = min 100 350 ∧
    (stdoutHandler ⟨.processing, 55, none, none⟩ "PROGRESS 99".toList).progress ≤ 100 ∧
    (closeHandler ⟨.processing, 55, none, none⟩ ⟨0, [], .ok "hi".toList⟩).progress = 100 :=
  ⟨(C7_progress_range.2.1 mkJob _ 350 (by decide) rfl).1,
   C7_progress_range.2.2.1 _ _ (by decide),
   C7_progress_range.2.2.2.2.1 _ _ "hi".toList rfl rfl⟩

/-! ## C2 -/

/-- The clamped progress values one stdout chunk stores, in order. -/
def chunkUpdates (chunk : List Char) : List Nat :=
  ((linesOf chunk).filterMap findProgress).map (fun v => min 100 v)

/-- The clamped progress values a whole chunk sequence stores, in order. -/
def allUpdates (chunks : List (List Char)) : List Nat :=
  chunks.flatMap chunkUpdates

theorem getLastD_append {α : Type} (a b : List α) (d : α) :
    (a ++ b).getLastD d = b.getLastD (a.getLastD d) := by
  induction a generalizing d with
  | nil => rfl
  | cons x a ih => rw [List.cons_append, List.getLastD_cons, List.getLastD_cons, ih]

theorem foldl_applyLine_progress (ls : List (List Char)) (j : Job)
    (h : j.status = .processing) :
    ls.foldl applyLine j =
      { j with progress := ((ls.filterMap findProgress).map (fun v => min 100 v)).getLastD j.progress } := by
  induction ls generalizing j with
  | nil => simp
  | cons l ls ih =>
    cases hv : findProgress l with
    | none =>
      have ha : applyLine j l = j := by simp [applyLine, hv]
      rw [List.foldl_cons, ha, ih j h]
      simp only [List.filterMap_cons, hv]
    | some v =>
      have ha : applyLine j l = { j with progress := min 100 v } := by
        simp [applyLine, hv, h]
      rw [List.foldl_cons, ha, ih { j with progress := min 100 v } h]
      simp only [List.filterMap_cons, hv, List.map_cons, List.getLastD_cons]

theorem stdoutHandler_progress (j : Job) (chunk : List Char) (h : j.status = .processing) :
    stdoutHandler j chunk = { j with progress := (chunkUpdates chunk).getLastD j.progress } :=
  foldl_applyLine_progress _ j h

theorem stdoutHandler_status (j : Job) (chunk : List Char) :
    (stdoutHandler j chunk).status = j.status := by
  unfold stdoutHandler
  induction linesOf chunk generalizing j with
  | nil => rfl
  | cons l ls ih => rw [List.foldl_cons, ih, applyLine_status]

theorem foldl_stdoutHandler_progress (chunks : List (List Char)) (j : Job)
    (h : j.status = .processing) :
    chunks.foldl stdoutHandler j =
      { j with progress := (allUpdates chunks).getLastD j.progress } := by
  induction chunks generalizing j with
  | nil => simp [allUpdates]
  | cons c cs ih =>
    rw [List.foldl_cons, stdoutHandler_progress j c h,
      ih { j with progress := (chunkUpdates c).getLastD j.progress } h]
    have hu : allUpdates (c :: cs) = chunkUpdates c ++ allUpdates cs := by
      simp only [allUpdates, List.flatMap_cons]
    rw [hu, getLastD_append]

theorem chain'_le_getLastD (ys : List Nat) (b : Nat)
    (h : List.Chain' (fun x y => x ≤ y) (b :: ys)) : b ≤ ys.getLastD b := by
  induction ys generalizing b with
  | nil => exact Nat.le_refl b
  | cons y ys ih =>
    rw [List.getLastD_cons]
    exact Nat.le_trans (List.chain'_cons.mp h).1 (ih y (List.chain'_cons.mp h).2)

theorem chain'_drop_getLastD (xs : List Nat) (a : Nat) (ys : List Nat)
    (h : List.Chain' (fun x y => x ≤ y) (a :: (xs ++ ys))) :
    List.Chain' (fun x y => x ≤ y) (xs.getLastD a :: ys) := by
  induction xs generalizing a with
  | nil => exact h
  | cons x xs ih =>
    rw [List.getLastD_cons]
    exact ih x (List.chain'_cons.mp h).2

/-- C2, as stated, is false: the stdout handler stores each parsed value as-is
(only clamped from above), so the update parsed from `PROGRESS 30` overwrites
an earlier value 80 with the smaller value 30 while the job is still
processing. -/
theorem C2_counterexample :
    (stdoutHandler mkJob "PROGRESS 80".toList).status = .processing ∧
    (stdoutHandler mkJob "PROGRESS 80".toList).progress = 80 ∧
    (stdoutHandler (stdoutHandler mkJob "PROGRESS 80".toList) "PROGRESS 30".toList).progress
      = 30 ∧ 30 < 80 := by
  decide

/-- C2 amended: the handler stores each parsed (clamped) value without
comparing it to the current progress, so the job's progress is monotonically
non-decreasing over the run exactly under the assumption that the subprocess
emits its PROGRESS values in non-decreasing order; under that assumption every
earlier point of the run has progress at most that of every later point. -/
theorem C2_amended_monotone (chunks₁ chunks₂ : List (List Char))
    (hmono : List.Chain' (fun x y => x ≤ y) (0 :: allUpdates (chunks₁ ++ chunks₂))) :
    (chunks₁.foldl stdoutHandler mkJob).progress ≤
      ((chunks₁ ++ chunks₂).foldl stdoutHandler mkJob).progress := by
  rw [foldl_stdoutHandler_progress _ mkJob rfl, foldl_stdoutHandler_progress _ mkJob rfl]
  show (allUpdates chunks₁).getLastD 0 ≤ (allUpdates (chunks₁ ++ chunks₂)).getLastD 0
  have happ : allUpdates (chunks₁ ++ chunks₂) = allUpdates chunks₁ ++ allUpdates chunks₂ :=
    List.flatMap_append chunks₁ chunks₂ chunkUpdates
  rw [happ, getLastD_append]
  apply chain'_le_getLastD
  apply chain'_drop_getLastD
  rw [happ] at hmono
  exact hmono

/-- Witness for C2 amended on a concrete non-decreasing PROGRESS sequence. -/
theorem C2_amended_monotone_witness :
    (["PROGRESS 10\nPROGRESS 35".toList].foldl stdoutHandler mkJob).progress ≤
      ((["PROGRESS 10\nPROGRESS 35".toList] ++ ["PROGRESS 90".toList]).foldl
        stdoutHandler mkJob).progress :=
  C2_amended_monotone ["PROGRESS 10\nPROGRESS 35".toList] ["PROGRESS 90".toList] (by
    have h : allUpdates (["PROGRESS 10\nPROGRESS 35".toList] ++ ["PROGRESS 90".toList])
        = [10, 35, 90] := by decide
    rw [h]
    exact List.chain'_cons.mpr ⟨by decide, List.chain'_cons.mpr ⟨by decide,
      List.chain'_cons.mpr ⟨by decide, List.chain'_singleton _⟩⟩⟩)

/-! ## C4 -/

/-- C4 fails on the code at its "failures occurring before the subprocess
runs" part: when the `writeFile` of the temporary audio input rejects after
the jobId response was already sent, the exception escapes the background flow
into the route's catch — it is thrown, not recorded — and the job stays at
status processing with a null error field forever.  (Subprocess failures, in
contrast, are recorded: see the last two conjuncts.) -/
theorem C4_writeFile_failure_escapes :
    ((runLocalJob (.error "ENOSPC: no space left on device".toList) []
        ⟨0, [], .ok []⟩).1.status = .processing ∧
      (runLocalJob (.error "ENOSPC: no space left on device".toList) []
        ⟨0, [], .ok []⟩).1.error = none ∧
      (runLocalJob (.error "ENOSPC: no space left on device".toList) []
        ⟨0, [], .ok []⟩).2 = some "ENOSPC: no space left on device".toList) ∧
    ((runLocalJob (.ok ()) [] ⟨1, "trace".toList, .ok []⟩).1.status = .error ∧
      (runLocalJob (.ok ()) [] ⟨1, "trace".toList, .ok []⟩).1.error
        = some "trace".toList ∧
      (runLocalJob (.ok ()) [] ⟨1, "trace".toList, .ok []⟩).2 = none) := by
  decide

/-! ## C5 -/

/-- C5, as stated, is false: on a non-zero subprocess exit the awaited exit
promise rejects before the cleanup line runs, so the call fails surfacing the
captured stderr text while no deletion of the temporary files is attempted. -/
theorem C5_counterexample :
    transcribeLocal 1 "boom".toList (some "text".toList)
      = (.error "boom".toList, false) := rfl

/-- C5 amended: the best-effort deletion of the two temporary files is
attempted exactly when the subprocess exits 0, that is, exactly when the call
returns (trimmed) text; when the call fails surfacing stderr, the rejection
propagates before the cleanup line and no deletion is attempted. -/
theorem C5_amended_cleanup (code : Int) (stderr : List Char)
    (readRes : Option (List Char)) :
    (transcribeLocal code stderr readRes).2 = true
      ↔ ∃ t, (transcribeLocal code stderr readRes).1 = Except.ok t := by
  unfold transcribeLocal
  by_cases hc : code = 0
  · simp [hc]
  · simp [hc]

/-! ## C10 -/

/-- C10: when the subprocess exits 0 but the transcript file cannot be read,
the `.catch` converts the read failure to the empty string and the call
returns the empty string (and still attempts the cleanup), raising no error. -/
theorem C10_read_failure_yields_empty (stderr : List Char) :
    transcribeLocal 0 stderr none = (.ok [], true) := rfl

/-! ## C8 -/

/-- C8: an upload whose MIME type is outside the mp3/wav allow-list is
rejected with 400 and the specific error body, with no job registered and no
transcription started, whatever the configured mode (remote or local). -/
theorem C8_bad_mime_rejected (f : UploadFile) (env : Option String)
    (h : f.mimetype ∉ okMimes) :
    transcribeRoute (some f) env
      = ⟨.reject 400 "僅支援 mp3 或 wav", false, false⟩ := by
  have hc : okMimes.contains f.mimetype = false := by
    simpa using h
  simp [transcribeRoute, hc]
  intro hm
  exact absurd hm h

/-- Witness for C8 at a concrete disallowed MIME type, in both modes. -/
theorem C8_bad_mime_rejected_witness :
    transcribeRoute (some ⟨"video/mp4"⟩) none
        = ⟨.reject 400 "僅支援 mp3 或 wav", false, false⟩ ∧
      transcribeRoute (some ⟨"video/mp4"⟩) (some "local")
        = ⟨.reject 400 "僅支援 mp3 或 wav", false, false⟩ :=
  ⟨C8_bad_mime_rejected ⟨"video/mp4"⟩ none (by decide),
    C8_bad_mime_rejected ⟨"video/mp4"⟩ (some "local") (by decide)⟩

/-! ## Shared lemmas about the credential store -/

theorem hexVal_hexDigit : ∀ n < 16, hexVal (hexDigit n) = n := by decide

theorem hexDigit_ne_colon : ∀ n < 16, hexDigit n ≠ ':' := by decide

theorem fromHex_toHex (bs : List Nat) (h : Bytes bs) : fromHexChars (toHexChars bs) = bs := by
  induction bs with
  | nil => rfl
  | cons b bs ih =>
    have hb : b < 256 := h b (List.mem_cons_self b bs)
    have hd : b / 16 < 16 := by omega
    have hm : b % 16 < 16 := Nat.mod_lt b (by omega)
    have htl : toHexChars (b :: bs) = hexDigit (b / 16) :: hexDigit (b % 16) :: toHexChars bs := by
      simp [toHexChars]
    rw [htl]
    show (hexVal (hexDigit (b / 16)) * 16 + hexVal (hexDigit (b % 16))) :: fromHexChars (toHexChars bs) = b :: bs
    rw [hexVal_hexDigit _ hd, hexVal_hexDigit _ hm, ih (fun x hx => h x (List.mem_cons_of_mem b hx))]
    congr 1
    omega

theorem colon_not_mem_toHex (bs : List Nat) (h : Bytes bs) : ':' ∉ toHexChars bs := by
  intro hmem
  rcases List.mem_flatMap.mp hmem with ⟨b, hb, hc⟩
  have hb256 : b < 256 := h b hb
  have h1 : hexDigit (b / 16) ≠ ':' := hexDigit_ne_colon _ (by omega)
  have h2 : hexDigit (b % 16) ≠ ':' := hexDigit_ne_colon _ (Nat.mod_lt b (by omega))
  simp only [List.mem_cons, List.not_mem_nil] at hc
  rcases hc with hc | hc | hc
  · exact h1 hc.symm
  · exact h2 hc.symm
  · exact hc

theorem splitAll_of_not_mem (sep : Char) (l : List Char) (h : sep ∉ l) :
    splitAll sep l = [l] := by
  induction l with
  | nil => rfl
  | cons c cs ih =>
    have hc : ¬ c = sep := fun he => h (he ▸ List.mem_cons_self c cs)
    have hcs : sep ∉ cs := fun hm => h (List.mem_cons_of_mem c hm)
    simp only [splitAll, if_neg hc, ih hcs]

theorem splitAll_append (sep : Char) (a b : List Char) (h : sep ∉ a) :
    splitAll sep (a ++ sep :: b) = a :: splitAll sep b := by
  induction a with
  | nil => simp [splitAll]
  | cons x a ih =>
    have hx : ¬ x = sep := fun he => h (he ▸ List.mem_cons_self x a)
    have ha : sep ∉ a := fun hm => h (List.mem_cons_of_mem x hm)
    show splitAll sep (x :: (a ++ sep :: b)) = (x :: a) :: splitAll sep b
    rw [splitAll, if_neg hx, ih ha]

theorem xorBytes_length (a p : List Nat) : (xorBytes a p).length = min a.length p.length :=
  List.length_zipWith _ a p

theorem xorBytes_cancel (a : List Nat) : ∀ p, a.length = p.length →
    xorBytes (xorBytes a p) p = a := by
  induction a with
  | nil => intro p _; rfl
  | cons x a ih =>
    intro p hp
    cases p with
    | nil => simp at hp
    | cons y p =>
      simp only [xorBytes, List.zipWith_cons_cons]
      rw [Nat.xor_cancel_right]
      have : xorBytes (xorBytes a p) p = a := ih p (by simpa using hp)
      simp only [xorBytes] at this
      rw [this]

theorem xorBytes_bytes (a : List Nat) : ∀ p, Bytes a → Bytes p → Bytes (xorBytes a p) := by
  induction a with
  | nil => intro p _ _ x hx; simp [xorBytes] at hx
  | cons x a ih =>
    intro p ha hp
    cases p with
    | nil => intro z hz; simp [xorBytes] at hz
    | cons y p =>
      intro z hz
      simp only [xorBytes, List.zipWith_cons_cons, List.mem_cons] at hz
      rcases hz with hz | hz
      · have hx : x < 2 ^ 8 := by
          have := ha x (List.mem_cons_self x a); omega
        have hy : y < 2 ^ 8 := by
          have := hp y (List.mem_cons_self y p); omega
        have := Nat.xor_lt_two_pow hx hy
        omega
      · exact ih p (fun u hu => ha u (List.mem_cons_of_mem x hu))
          (fun u hu => hp u (List.mem_cons_of_mem y hu)) z hz

theorem cbcEnc_lengths (E : List Nat → List Nat) (hlen : ∀ b, (E b).length = b.length) :
    ∀ (bs : List (List Nat)) (prev : List Nat), prev.length = 16 →
      (∀ b ∈ bs, b.length = 16) → ∀ c ∈ cbcEnc E prev bs, c.length = 16 := by
  intro bs
  induction bs with
  | nil => intro prev _ _ c hc; simp [cbcEnc] at hc
  | cons b bs ih =>
    intro prev hprev hall c hc
    have hb : b.length = 16 := hall b (List.mem_cons_self b bs)
    have hc0 : (E (xorBytes b prev)).length = 16 := by
      rw [hlen, xorBytes_length, hb, hprev]; omega
    simp only [cbcEnc, List.mem_cons] at hc
    rcases hc with hc | hc
    · rw [hc]; exact hc0
    · exact ih _ hc0 (fun u hu => hall u (List.mem_cons_of_mem b hu)) c hc

theorem cbcEnc_bytes (E : List Nat → List Nat)
    (hrange : ∀ b, Bytes b → Bytes (E b)) :
    ∀ (bs : List (List Nat)) (prev : List Nat), Bytes prev →
      (∀ b ∈ bs, Bytes b) → ∀ c ∈ cbcEnc E prev bs, Bytes c := by
  intro bs
  induction bs with
  | nil => intro prev _ _ c hc; simp [cbcEnc] at hc
  | cons b bs ih =>
    intro prev hprev hall c hc
    have hb : Bytes b := hall b (List.mem_cons_self b bs)
    have hc0 : Bytes (E (xorBytes b prev)) := hrange _ (xorBytes_bytes b prev hb hprev)
    simp only [cbcEnc, List.mem_cons] at hc
    rcases hc with hc | hc
    · rw [hc]; exact hc0
    · exact ih _ hc0 (fun u hu => hall u (List.mem_cons_of_mem b hu)) c hc

theorem cbcDec_cbcEnc (E D : List Nat → List Nat) (hED : ∀ b, D (E b) = b)
    (hlen : ∀ b, (E b).length = b.length) :
    ∀ (bs : List (List Nat)) (prev : List Nat), prev.length = 16 →
      (∀ b ∈ bs, b.length = 16) → cbcDec D prev (cbcEnc E prev bs) = bs := by
  intro bs
  induction bs with
  | nil => intro prev _ _; rfl
  | cons b bs ih =>
    intro prev hprev hall
    have hb : b.length = 16 := hall b (List.mem_cons_self b bs)
    have hc0 : (E (xorBytes b prev)).length = 16 := by
      rw [hlen, xorBytes_length, hb, hprev]; omega
    simp only [cbcEnc, cbcDec]
    rw [hED, xorBytes_cancel b prev (by omega),
      ih _ hc0 (fun u hu => hall u (List.mem_cons_of_mem b hu))]

theorem chunk16_nil : chunk16 [] = [] := by rw [chunk16]

theorem chunk16_cons (b : Nat) (l : List Nat) :
    chunk16 (b :: l) = ((b :: l).take 16) :: chunk16 ((b :: l).drop 16) := by
  rw [chunk16]

theorem flatten_chunk16_fuel (n : Nat) : ∀ (l : List Nat), l.length ≤ n →
    (chunk16 l).flatten = l := by
  induction n with
  | zero =>
    intro l hl
    have : l = [] := List.eq_nil_of_length_eq_zero (by omega)
    rw [this, chunk16_nil]; rfl
  | succ n ih =>
    intro l hl
    cases l with
    | nil => rw [chunk16_nil]; rfl
    | cons b t =>
      have hd : ((b :: t).drop 16).length ≤ n := by
        rw [List.length_drop, List.length_cons]
        simp only [List.length_cons] at hl
        omega
      rw [chunk16_cons, List.flatten_cons, ih _ hd]
      exact List.take_append_drop 16 (b :: t)

theorem flatten_chunk16 (l : List Nat) : (chunk16 l).flatten = l :=
  flatten_chunk16_fuel l.length l (Nat.le_refl _)

theorem chunk16_lengths_fuel (n : Nat) : ∀ (l : List Nat), l.length ≤ n →
    16 ∣ l.length → ∀ c ∈ chunk16 l, c.length = 16 := by
  induction n with
  | zero =>
    intro l hl _ c hc
    have : l = [] := List.eq_nil_of_length_eq_zero (by omega)
    rw [this] at hc
    simp [chunk16] at hc
  | succ n ih =>
    intro l hl hdvd c hc
    cases l with
    | nil => simp [chunk16] at hc
    | cons b t =>
      have hge : 16 ≤ (b :: t).length := by
        simp only [List.length_cons]
        simp only [List.length_cons] at hdvd
        omega
      rw [chunk16_cons] at hc
      simp only [List.mem_cons] at hc
      rcases hc with hc | hc
      · rw [hc, List.length_take]
        omega
      · refine ih _ ?_ ?_ c hc
        · rw [List.length_drop, List.length_cons]
          simp only [List.length_cons] at hl
          omega
        · rw [List.length_drop]
          simp only [List.length_cons] at hdvd ⊢
          omega

theorem chunk16_lengths (l : List Nat) (hdvd : 16 ∣ l.length) :
    ∀ c ∈ chunk16 l, c.length = 16 :=
  chunk16_lengths_fuel l.length l (Nat.le_refl _) hdvd

theorem chunk16_mem_mem (l : List Nat) (c : List Nat) (x : Nat)
    (hc : c ∈ chunk16 l) (hx : x ∈ c) : x ∈ l := by
  have := List.mem_flatten_of_mem hc hx
  rwa [flatten_chunk16] at this

theorem pad16_dvd (bs : List Nat) : 16 ∣ (pad16 bs).length := by
  simp only [pad16, List.length_append, List.length_replicate]
  omega

theorem pad16_bytes (bs : List Nat) (h : Bytes bs) : Bytes (pad16 bs) := by
  intro x hx
  simp only [pad16, List.mem_append] at hx
  rcases hx with hx | hx
  · exact h x hx
  · have := List.eq_of_mem_replicate hx
    omega

theorem getLastD_replicate (m : Nat) (k d : Nat) :
    (List.replicate (m + 1) k).getLastD d = k := by
  induction m generalizing d with
  | zero => rfl
  | succ m ih =>
    rw [List.replicate_succ, List.getLastD_cons]
    exact ih k

theorem unpad16_pad16 (bs : List Nat) : unpad16 (pad16 bs) = bs := by
  have hmod : bs.length % 16 < 16 := Nat.mod_lt _ (by omega)
  obtain ⟨m, hm⟩ : ∃ m, 16 - bs.length % 16 = m + 1 := ⟨15 - bs.length % 16, by omega⟩
  unfold unpad16 pad16
  rw [hm, getLastD_append, getLastD_replicate m _ _,
    List.length_append, List.length_replicate]
  have : bs.length + (m + 1) - (m + 1) = bs.length := by omega
  rw [this, List.take_left' rfl]

theorem chunk16_flatten (L : List (List Nat)) (h : ∀ c ∈ L, c.length = 16) :
    chunk16 L.flatten = L := by
  induction L with
  | nil => exact chunk16_nil
  | cons b L ih =>
    have hb : b.length = 16 := h b (List.mem_cons_self b L)
    cases b with
    | nil => simp at hb
    | cons x t =>
      have e1 : (x :: t) ++ L.flatten = x :: (t ++ L.flatten) := rfl
      rw [List.flatten_cons, e1, chunk16_cons, ← e1, List.take_left' hb, List.drop_left' hb,
        ih (fun c hc => h c (List.mem_cons_of_mem _ hc))]

theorem decrypt_encrypt (E D : List Nat → List Nat)
    (hED : ∀ b, D (E b) = b)
    (hlen : ∀ b, (E b).length = b.length)
    (hrange : ∀ b, Bytes b → Bytes (E b))
    (iv : List Nat) (hiv16 : iv.length = 16) (hivB : Bytes iv)
    (bs : List Nat) (hbs : Bytes bs) :
    decrypt D (encrypt E iv bs) = bs := by
  have hBlen : ∀ c ∈ chunk16 (pad16 bs), c.length = 16 :=
    chunk16_lengths _ (pad16_dvd bs)
  have hBbytes : ∀ c ∈ chunk16 (pad16 bs), Bytes c := by
    intro c hc x hx
    exact pad16_bytes bs hbs x (chunk16_mem_mem _ c x hc hx)
  have hCTlen : ∀ c ∈ cbcEnc E iv (chunk16 (pad16 bs)), c.length = 16 :=
    cbcEnc_lengths E hlen _ iv hiv16 hBlen
  have hCTbytes : ∀ c ∈ cbcEnc E iv (chunk16 (pad16 bs)), Bytes c :=
    cbcEnc_bytes E hrange _ iv hivB hBbytes
  have hflatbytes : Bytes (cbcEnc E iv (chunk16 (pad16 bs))).flatten := by
    intro x hx
    rcases List.mem_flatten.mp hx with ⟨c, hc, hxc⟩
    exact hCTbytes c hc x hxc
  have hsplit : splitAll ':'
      (toHexChars iv ++ ':' :: toHexChars (cbcEnc E iv (chunk16 (pad16 bs))).flatten)
      = [toHexChars iv, toHexChars (cbcEnc E iv (chunk16 (pad16 bs))).flatten] := by
    rw [splitAll_append ':' _ _ (colon_not_mem_toHex iv hivB),
      splitAll_of_not_mem ':' _ (colon_not_mem_toHex _ hflatbytes)]
  show decrypt D
      (toHexChars iv ++ ':' :: toHexChars (cbcEnc E iv (chunk16 (pad16 bs))).flatten) = bs
  unfold decrypt
  rw [hsplit]
  show unpad16 (cbcDec D
      (fromHexChars (toHexChars iv))
      (chunk16 (fromHexChars (toHexChars (cbcEnc E iv (chunk16 (pad16 bs))).flatten)))).flatten
    = bs
  rw [fromHex_toHex iv hivB, fromHex_toHex _ hflatbytes, chunk16_flatten _ hCTlen,
    cbcDec_cbcEnc E D hED hlen _ iv hiv16 hBlen, flatten_chunk16, unpad16_pad16]

theorem getKey_setKey (E D : List Nat → List Nat) (enc8 : List Char → List Nat)
    (dec8 : List Nat → List Char) (s : Store) (provider : String) (k : List Char)
    (iv : List Nat) (m : Bool)
    (hED : ∀ b, D (E b) = b) (hlen : ∀ b, (E b).length = b.length)
    (hrange : ∀ b, Bytes b → Bytes (E b))
    (hiv16 : iv.length = 16) (hivB : Bytes iv)
    (hk : Bytes (enc8 k)) (hcodec : dec8 (enc8 k) = k) :
    getKey D dec8 (setKey E enc8 s provider k iv) provider m
      = some (if m then maskKey k else k) := by
  show getKey D dec8
      (fun q => if q = provider then some (encrypt E iv (enc8 k)) else s q) provider m
    = some (if m then maskKey k else k)
  unfold getKey
  simp only [eq_self_iff_true, if_true]
  rw [decrypt_encrypt E D hED hlen hrange iv hiv16 hivB (enc8 k) hk, hcodec]

theorem maskKey_length (cs : List Char) : (maskKey cs).length = cs.length := by
  induction cs with
  | nil => rfl
  | cons c cs ih => simp [maskKey, ih]

theorem maskKey_short (cs : List Char) (h : cs.length ≤ 4) : maskKey cs = cs := by
  induction cs with
  | nil => rfl
  | cons c cs ih =>
    have h4 : ¬ ((cs.take 4).length = 4) := by
      rw [List.length_take]
      simp only [List.length_cons] at h
      omega
    have hcs : cs.length ≤ 4 := by
      simp only [List.length_cons] at h
      omega
    simp [maskKey, ih hcs]
    intro _ hge _
    exfalso
    simp only [List.length_cons] at h
    omega

theorem maskKey_all_dot (cs : List Char) (hdot : ∀ c ∈ cs, dotMatch c = true)
    (hlen : 4 < cs.length) :
    maskKey cs = List.replicate (cs.length - 4) '*' ++ cs.drop (cs.length - 4) := by
  induction cs with
  | nil => simp at hlen
  | cons c cs ih =>
    have hc : dotMatch c = true := hdot c (List.mem_cons_self c cs)
    have hlen' : 4 ≤ cs.length := by
      simp only [List.length_cons] at hlen
      omega
    have htake : (cs.take 4).length = 4 := by
      rw [List.length_take]
      omega
    have hall : (cs.take 4).all dotMatch = true := by
      rw [List.all_eq_true]
      intro x hx
      exact hdot x (List.mem_cons_of_mem c (List.take_subset 4 cs hx))
    by_cases h4 : 4 < cs.length
    · have e1 : (c :: cs).length - 4 = (cs.length - 4) + 1 := by
        simp only [List.length_cons]
        omega
      rw [e1]
      simp only [maskKey, hc, htake, hall]
      rw [ih (fun x hx => hdot x (List.mem_cons_of_mem c hx)) h4]
      rw [List.replicate_succ, List.drop_succ_cons, List.cons_append]
      simp
    · have h4' : cs.length = 4 := by omega
      have e1 : (c :: cs).length - 4 = 1 := by
        simp only [List.length_cons]
        omega
      rw [e1]
      simp only [maskKey, hc, htake, hall]
      rw [maskKey_short cs (by omega), List.drop_succ_cons, List.drop_zero]
      simp

/-! ## C3 -/

/-- C3: storing a key with `setKey` and reading it back with
`getKey(provider, masked=false)` returns exactly the original key: the
`ivHex:dataHex` payload format, the hex codec, the CBC chaining and the PKCS#7
padding round-trip, for any block cipher `E`/`D` with the inverse, length and
byte-range behavior of the library's AES-256-CBC, any utf8 codec pair
`enc8`/`dec8` faithful on the key, any 16-byte iv and any prior store
contents. -/
theorem C3_setKey_getKey_roundtrip (E D : List Nat → List Nat)
    (enc8 : List Char → List Nat) (dec8 : List Nat → List Char)
    (s : Store) (provider : String) (k : List Char) (iv : List Nat)
    (hED : ∀ b, D (E b) = b) (hlen : ∀ b, (E b).length = b.length)
    (hrange : ∀ b, Bytes b → Bytes (E b))
    (hiv16 : iv.length = 16) (hivB : Bytes iv)
    (hk : Bytes (enc8 k)) (hcodec : dec8 (enc8 k) = k) :
    getKey D dec8 (setKey E enc8 s provider k iv) provider false = some k := by
  rw [getKey_setKey E D enc8 dec8 s provider k iv false hED hlen hrange hiv16 hivB hk hcodec]
  rfl

/-- Witness for C3 at a concrete key, iv, provider and identity block cipher. -/
theorem C3_setKey_getKey_roundtrip_witness :
    getKey id (fun bs => bs.map Char.ofNat)
        (setKey id (fun cs => cs.map Char.toNat) emptyStore "openai" "sk-abc123".toList
          (List.replicate 16 0))
        "openai" false = some "sk-abc123".toList :=
  C3_setKey_getKey_roundtrip id id _ _ emptyStore "openai" "sk-abc123".toList
    (List.replicate 16 0) (fun _ => rfl) (fun _ => rfl) (fun _ h => h)
    (by decide) (by decide) (by decide) (by decide)

/-! ## C9 -/

/-- C9: a stored key of length at most 4 comes back from
`getKey(provider, masked=true)` as the full plaintext key with nothing masked,
because the masking regex only replaces a character followed by at least four
more characters. -/
theorem C9_short_key_unmasked (E D : List Nat → List Nat)
    (enc8 : List Char → List Nat) (dec8 : List Nat → List Char)
    (s : Store) (provider : String) (k : List Char) (iv : List Nat)
    (hED : ∀ b, D (E b) = b) (hlen : ∀ b, (E b).length = b.length)
    (hrange : ∀ b, Bytes b → Bytes (E b))
    (hiv16 : iv.length = 16) (hivB : Bytes iv)
    (hk : Bytes (enc8 k)) (hcodec : dec8 (enc8 k) = k)
    (hshort : k.length ≤ 4) :
    getKey D dec8 (setKey E enc8 s provider k iv) provider true = some k := by
  rw [getKey_setKey E D enc8 dec8 s provider k iv true hED hlen hrange hiv16 hivB hk hcodec]
  rw [if_pos rfl, maskKey_short k hshort]

/-- Witness for C9 at a concrete 4-character key. -/
theorem C9_short_key_unmasked_witness :
    getKey id (fun bs => bs.map Char.ofNat)
        (setKey id (fun cs => cs.map Char.toNat) emptyStore "google" "k123".toList
          (List.replicate 16 1))
        "google" true = some "k123".toList :=
  C9_short_key_unmasked id id _ _ emptyStore "google" "k123".toList
    (List.replicate 16 1) (fun _ => rfl) (fun _ => rfl) (fun _ h => h)
    (by decide) (by decide) (by decide) (by decide) (by decide)

/-! ## C6 -/

/-- C6, as stated, is false: the dot of the masking regex does not match line
terminators, so a stored 7-character key starting with a newline comes back
with the newline unmasked — not every character except the last 4 is replaced
by the mask character. -/
theorem C6_counterexample :
    getKey id (fun bs => bs.map Char.ofNat)
        (setKey id (fun cs => cs.map Char.toNat) emptyStore "openai" "\nabcdef".toList
          (List.replicate 16 0))
        "openai" true = some "\n**cdef".toList
    ∧ 4 < "\nabcdef".toList.length
    ∧ ¬ ∀ c ∈ "\n**cdef".toList.take ("\n**cdef".toList.length - 4), c = '*' := by
  refine ⟨?_, by decide, by decide⟩
  rw [getKey_setKey id id (fun cs => cs.map Char.toNat) (fun bs => bs.map Char.ofNat)
    emptyStore "openai" "\nabcdef".toList (List.replicate 16 0) true
    (fun _ => rfl) (fun _ => rfl) (fun _ h => h) (by decide) (by decide) (by decide) (by decide)]
  decide

/-- C6 amended: for a stored key longer than 4 characters all of whose
characters are matched by the regex dot (no line terminators), masked
retrieval returns a string of the same length in which every character except
the last 4 is the mask character and the last 4 are those of the real key;
a key containing a line terminator keeps it unmasked. -/
theorem C6_amended_masking (E D : List Nat → List Nat)
    (enc8 : List Char → List Nat) (dec8 : List Nat → List Char)
    (s : Store) (provider : String) (k : List Char) (iv : List Nat)
    (hED : ∀ b, D (E b) = b) (hlen : ∀ b, (E b).length = b.length)
    (hrange : ∀ b, Bytes b → Bytes (E b))
    (hiv16 : iv.length = 16) (hivB : Bytes iv)
    (hk : Bytes (enc8 k)) (hcodec : dec8 (enc8 k) = k)
    (hdot : ∀ c ∈ k, dotMatch c = true) (hlong : 4 < k.length) :
    getKey D dec8 (setKey E enc8 s provider k iv) provider true
        = some (List.replicate (k.length - 4) '*' ++ k.drop (k.length - 4))
    ∧ (List.replicate (k.length - 4) '*' ++ k.drop (k.length - 4)).length = k.length := by
  constructor
  · rw [getKey_setKey E D enc8 dec8 s provider k iv true hED hlen hrange hiv16 hivB hk hcodec]
    rw [if_pos rfl, maskKey_all_dot k hdot hlong]
  · simp only [List.length_append, List.length_replicate, List.length_drop]
    omega

/-- Witness for C6 amended at a concrete 14-character key. -/
theorem C6_amended_masking_witness :
    getKey id (fun bs => bs.map Char.ofNat)
        (setKey id (fun cs => cs.map Char.toNat) emptyStore "openai" "sk-secret-9876".toList
          (List.replicate 16 0))
        "openai" true
      = some (List.replicate ("sk-secret-9876".toList.length - 4) '*'
          ++ "sk-secret-9876".toList.drop ("sk-secret-9876".toList.length - 4)) :=
  (C6_amended_masking id id _ _ emptyStore "openai" "sk-secret-9876".toList
    (List.replicate 16 0) (fun _ => rfl) (fun _ => rfl) (fun _ h => h)
    (by decide) (by decide) (by decide) (by decide) (by decide) (by decide)).1

end Stmp3
